import Mathlib

/-!
Verification of the WAT bulk-memory polyfill pass
(`src/contracts/polyfill_wat.py`) and of the companion account-hash
utility (`src/contracts/get_account_hash.py`).

Module text is modelled as `List Char`.  Python's substring test
(`'memory.copy' in content`) is `occursIn`; `str.rfind(')')` together
with the slice-splice is `splitAtLastParen`; `re.sub` with the two
patterns used by the script (a literal mnemonic followed by an optional
group of zero operands, where the whitespace class and the literal `0`
are disjoint, so greedy matching is deterministic) is the fueled
left-to-right scan `replaceGenF`.

Linear memory for the synthesized WAT functions is `Nat → Nat`; i32
address arithmetic is taken modulo `2 ^ 32` and `i32.store8` truncates
the stored value modulo `256`.
-/

namespace Polyfill

/-- `startsWith p s` : the pattern `p` is a literal prefix of `s`. -/
def startsWith : List Char → List Char → Bool
  | [], _ => true
  | _ :: _, [] => false
  | p :: ps, c :: cs => if p = c then startsWith ps cs else false

/-- `occursIn p s` : `p` occurs as a contiguous substring of `s`
(Python's `p in s`). -/
def occursIn (p : List Char) : List Char → Bool
  | [] => startsWith p []
  | c :: cs => startsWith p (c :: cs) || occursIn p cs

theorem startsWith_nil (s : List Char) : startsWith [] s = true := by
  cases s <;> rfl

theorem startsWith_nil_right (p : List Char) :
    startsWith p [] = true ↔ p = [] := by
  cases p <;> simp [startsWith]

theorem startsWith_length_le (p s : List Char) (h : startsWith p s = true) :
    p.length ≤ s.length := by
  induction p generalizing s with
  | nil => simp
  | cons a ps ih =>
    cases s with
    | nil => simp [startsWith] at h
    | cons c cs =>
      simp only [startsWith] at h
      split at h
      · simpa using ih cs h
      · exact absurd h (by simp)

theorem startsWith_short (p s : List Char) (h : s.length < p.length) :
    startsWith p s = false := by
  cases hs : startsWith p s with
  | false => rfl
  | true => exact absurd (startsWith_length_le _ _ hs) (by omega)

theorem startsWith_append_long (p x y : List Char) (h : p.length ≤ x.length) :
    startsWith p (x ++ y) = startsWith p x := by
  induction p generalizing x with
  | nil => simp [startsWith_nil]
  | cons a ps ih =>
    cases x with
    | nil => simp at h
    | cons c cs =>
      simp only [List.cons_append, startsWith]
      split
      · exact ih cs (by simpa using h)
      · rfl

theorem startsWith_append_of (p x y : List Char)
    (h : startsWith p x = true) : startsWith p (x ++ y) = true := by
  induction p generalizing x with
  | nil => simp [startsWith_nil]
  | cons a ps ih =>
    cases x with
    | nil => simp [startsWith] at h
    | cons c cs =>
      simp only [List.cons_append, startsWith] at h ⊢
      split at h
      · rename_i hac
        rw [if_pos hac]
        exact ih cs h
      · exact absurd h (by simp)

theorem startsWith_take (l : List Char) (n : Nat) :
    startsWith (l.take n) l = true := by
  induction l generalizing n with
  | nil => simp [startsWith_nil]
  | cons c cs ih =>
    cases n with
    | zero => simp [startsWith_nil]
    | succ m =>
      simp only [List.take_succ_cons, startsWith, if_pos rfl]
      exact ih m

theorem startsWith_eq (p s : List Char) (h : startsWith p s = true)
    (hl : s.length ≤ p.length) : p = s := by
  induction p generalizing s with
  | nil =>
    cases s with
    | nil => rfl
    | cons c cs => simp at hl
  | cons a ps ih =>
    cases s with
    | nil => simp [startsWith] at h
    | cons c cs =>
      simp only [startsWith] at h
      split at h
      · rename_i hac
        rw [hac, ih cs h (by simpa using hl)]
      · exact absurd h (by simp)

theorem startsWith_append_split (p x y : List Char)
    (h : startsWith p (x ++ y) = true) :
    startsWith (p.take x.length) x = true ∧
      startsWith (p.drop x.length) y = true := by
  induction x generalizing p with
  | nil => exact ⟨startsWith_nil _, h⟩
  | cons c cs ih =>
    cases p with
    | nil => exact ⟨by simp [startsWith_nil], startsWith_nil _⟩
    | cons a ps =>
      simp only [List.cons_append, startsWith] at h
      split at h
      · rename_i hac
        obtain ⟨h1, h2⟩ := ih ps h
        refine ⟨?_, by simpa using h2⟩
        simp only [List.length_cons, List.take_succ_cons, startsWith,
          if_pos hac]
        exact h1
      · exact absurd h (by simp)

theorem occursIn_nil_pat (s : List Char) : occursIn [] s = true := by
  cases s <;> simp [occursIn, startsWith_nil, startsWith]

theorem occursIn_of_startsWith (p s : List Char)
    (h : startsWith p s = true) : occursIn p s = true := by
  cases s with
  | nil => exact h
  | cons c cs => simp [occursIn, h]

theorem occursIn_append_left (p x y : List Char)
    (h : occursIn p x = true) : occursIn p (x ++ y) = true := by
  induction x with
  | nil =>
    have hp : p = [] := (startsWith_nil_right p).1 h
    subst hp
    exact occursIn_nil_pat _
  | cons c cs ih =>
    simp only [occursIn, Bool.or_eq_true] at h
    rcases h with h | h
    · exact occursIn_of_startsWith _ _
        (by simpa using startsWith_append_of p (c :: cs) y h)
    · simp only [List.cons_append, occursIn, Bool.or_eq_true]
      exact Or.inr (ih h)

theorem occursIn_append_right (p x y : List Char)
    (h : occursIn p y = true) : occursIn p (x ++ y) = true := by
  induction x with
  | nil => simpa using h
  | cons c cs ih =>
    simp only [List.cons_append, occursIn, Bool.or_eq_true]
    exact Or.inr ih

theorem occursIn_append_cases (p x y : List Char)
    (h : occursIn p (x ++ y) = true) :
    occursIn p x = true ∨ occursIn p y = true ∨
      ∃ x1 x2, x = x1 ++ x2 ∧ x2 ≠ [] ∧ x2.length < p.length ∧
        startsWith p (x2 ++ y) = true := by
  induction x with
  | nil => exact Or.inr (Or.inl (by simpa using h))
  | cons c cs ih =>
    simp only [List.cons_append, occursIn, Bool.or_eq_true] at h
    rcases h with h | h
    · by_cases hl : p.length ≤ (c :: cs).length
      · have h' : startsWith p ((c :: cs) ++ y) = true := by simpa using h
        rw [startsWith_append_long p (c :: cs) y hl] at h'
        exact Or.inl (occursIn_of_startsWith _ _ h')
      · refine Or.inr (Or.inr ⟨[], c :: cs, by simp, by simp, by omega, ?_⟩)
        simpa using h
    · rcases ih h with h' | h' | ⟨x1, x2, hx, hne, hlt, hsw⟩
      · exact Or.inl (by simp [occursIn, h'])
      · exact Or.inr (Or.inl h')
      · exact Or.inr (Or.inr ⟨c :: x1, x2, by simp [hx], hne, hlt, hsw⟩)

/-! ### The rewriter (`re.sub`, `polyfill_wat.py` lines 94-100)

The two patterns are `memory\.copy(\s+0\s+0)?` and
`memory\.fill(\s+0)?`.  At a given position such a pattern matches iff
the literal mnemonic is a prefix there; the optional greedy group then
consumes `\s+0` once or twice, all-or-nothing.  Whitespace characters
and `'0'` are disjoint, so maximal-munch on `\s+` is exactly the
backtracking regex semantics.  `re.sub` scans left to right, replacing
each non-overlapping match and resuming after it; this scan is
`replaceGenF`, with fuel (one unit per emitted character or match) to
make the definition structurally recursive and hence computable by the
kernel.  Fuel `s.length` always suffices (`replaceGenF_fuel`). -/

/-- The full set of code points matched by Python's `\s` for `str`
patterns (Unicode mode, CPython 3.11): `U+0009`-`U+000D`,
`U+001C`-`U+001F`, space, `U+0085` (NEL), `U+00A0` (NBSP) and the
Unicode space characters. -/
def pythonWhitespace : List Nat :=
  [0x09, 0x0a, 0x0b, 0x0c, 0x0d, 0x1c, 0x1d, 0x1e, 0x1f, 0x20,
   0x85, 0xa0, 0x1680, 0x2000, 0x2001, 0x2002, 0x2003, 0x2004, 0x2005,
   0x2006, 0x2007, 0x2008, 0x2009, 0x200a, 0x2028, 0x2029, 0x202f,
   0x205f, 0x3000]

/-- `\s` as a character predicate. -/
def isWS (c : Char) : Bool := pythonWhitespace.contains c.toNat

/-- Match `\s+0` (one or more whitespace characters, then a literal
zero) at the front of `r`, returning the remainder. -/
def wsZero (r : List Char) : Option (List Char) :=
  if (r.takeWhile isWS).length = 0 then none
  else
    match r.dropWhile isWS with
    | '0' :: rest => some rest
    | _ => none

/-- The optional group `(\s+0\s+0)?` of the `memory.copy` pattern:
consume `\s+0\s+0` if it is present in full, else consume nothing. -/
def consumeCopyOps (r : List Char) : List Char :=
  match wsZero r with
  | none => r
  | some r1 =>
    match wsZero r1 with
    | none => r
    | some r2 => r2

/-- The optional group `(\s+0)?` of the `memory.fill` pattern. -/
def consumeFillOps (r : List Char) : List Char :=
  match wsZero r with
  | none => r
  | some r1 => r1

/-- One fueled step of the `re.sub` scan: at each position, if the
literal pattern `p` matches, emit `rep`, drop the match (pattern plus
optional operand group, via `consume`) and resume after it; otherwise
emit the character unchanged and move on. -/
def replaceGenF (p rep : List Char) (consume : List Char → List Char) :
    Nat → List Char → List Char
  | 0, _ => []
  | _, [] => []
  | fuel + 1, c :: cs =>
    if startsWith p (c :: cs) = true then
      rep ++ replaceGenF p rep consume fuel (consume ((c :: cs).drop p.length))
    else
      c :: replaceGenF p rep consume fuel cs

/-- The full substitution pass over `s`. -/
def replaceRun (p rep : List Char) (consume : List Char → List Char)
    (s : List Char) : List Char :=
  replaceGenF p rep consume s.length s

def copyPat : List Char := "memory.copy".toList
def fillPat : List Char := "memory.fill".toList
def callCpy : List Char := "call $memcpy".toList
def callSet : List Char := "call $memset".toList

/-- `re.sub(r'memory\.copy(\s+0\s+0)?', 'call $memcpy', s)`. -/
def replaceCopy (s : List Char) : List Char :=
  replaceRun copyPat callCpy consumeCopyOps s

/-- `re.sub(r'memory\.fill(\s+0)?', 'call $memset', s)`. -/
def replaceFill (s : List Char) : List Char :=
  replaceRun fillPat callSet consumeFillOps s

theorem dropWhile_sfx (q : Char → Bool) (r : List Char) :
    ∃ x, x ++ r.dropWhile q = r := by
  induction r with
  | nil => exact ⟨[], rfl⟩
  | cons c cs ih =>
    by_cases h : q c
    · obtain ⟨x, hx⟩ := ih
      exact ⟨c :: x, by simp [List.dropWhile, h, hx]⟩
    · exact ⟨[], by simp [List.dropWhile, h]⟩

theorem wsZero_sfx (r r1 : List Char) (h : wsZero r = some r1) :
    ∃ x, x ≠ [] ∧ x ++ r1 = r := by
  unfold wsZero at h
  split at h
  · exact absurd h (by simp)
  · rename_i hws
    obtain ⟨x, hx⟩ := dropWhile_sfx isWS r
    split at h
    · rename_i heq
      simp only [Option.some.injEq] at h
      subst h
      refine ⟨x ++ ['0'], by simp, ?_⟩
      rw [List.append_assoc]
      rw [heq] at hx
      exact hx
    · exact absurd h (by simp)

theorem wsZero_length (r r1 : List Char) (h : wsZero r = some r1) :
    r1.length < r.length := by
  obtain ⟨x, hne, hx⟩ := wsZero_sfx r r1 h
  have := congrArg List.length hx
  simp only [List.length_append] at this
  cases x with
  | nil => exact absurd rfl hne
  | cons a b => simp at this; omega

theorem consumeCopyOps_length (r : List Char) :
    (consumeCopyOps r).length ≤ r.length := by
  unfold consumeCopyOps
  split
  · exact Nat.le_refl _
  · rename_i r1 h1
    split
    · exact Nat.le_refl _
    · rename_i r2 h2
      have l1 := wsZero_length _ _ h1
      have l2 := wsZero_length _ _ h2
      omega

theorem consumeFillOps_length (r : List Char) :
    (consumeFillOps r).length ≤ r.length := by
  unfold consumeFillOps
  split
  · exact Nat.le_refl _
  · rename_i r1 h1
    exact Nat.le_of_lt (wsZero_length _ _ h1)

theorem consumeCopyOps_sfx (r : List Char) :
    ∃ x, x ++ consumeCopyOps r = r := by
  unfold consumeCopyOps
  split
  · exact ⟨[], rfl⟩
  · rename_i r1 h1
    split
    · exact ⟨[], rfl⟩
    · rename_i r2 h2
      obtain ⟨x1, _, hx1⟩ := wsZero_sfx _ _ h1
      obtain ⟨x2, _, hx2⟩ := wsZero_sfx _ _ h2
      exact ⟨x1 ++ x2, by rw [List.append_assoc, hx2, hx1]⟩

theorem consumeFillOps_sfx (r : List Char) :
    ∃ x, x ++ consumeFillOps r = r := by
  unfold consumeFillOps
  split
  · exact ⟨[], rfl⟩
  · rename_i r1 h1
    obtain ⟨x1, _, hx1⟩ := wsZero_sfx _ _ h1
    exact ⟨x1, hx1⟩

theorem replaceGenF_nil (p rep : List Char) (consume : List Char → List Char)
    (fuel : Nat) : replaceGenF p rep consume fuel [] = [] := by
  cases fuel <;> rfl

/-- Fuel irrelevance: any fuel at least the input length gives the same
result, so `replaceRun`'s choice of `s.length` is canonical. -/
theorem replaceGenF_fuel (p rep : List Char) (consume : List Char → List Char)
    (hp : 0 < p.length) (hc : ∀ r, (consume r).length ≤ r.length) :
    ∀ f1 f2 s, s.length ≤ f1 → s.length ≤ f2 →
      replaceGenF p rep consume f1 s = replaceGenF p rep consume f2 s := by
  intro f1
  induction f1 with
  | zero =>
    intro f2 s h1 _
    have : s = [] := List.length_eq_zero.1 (by omega)
    subst this
    simp [replaceGenF_nil]
  | succ f ih =>
    intro f2 s h1 h2
    cases s with
    | nil => simp [replaceGenF_nil]
    | cons c cs =>
      cases f2 with
      | zero => simp at h2
      | succ f2' =>
        simp only [replaceGenF]
        split
        · have hlen : (consume ((c :: cs).drop p.length)).length ≤ cs.length := by
            have := hc ((c :: cs).drop p.length)
            simp only [List.length_drop, List.length_cons] at this
            omega
          rw [ih f2' _ (by simp at h1; omega) (by simp at h2; omega)]
        · rw [ih f2' cs (by simpa using h1) (by simp at h2; omega)]

theorem replaceRun_nil (p rep : List Char) (consume : List Char → List Char) :
    replaceRun p rep consume [] = [] := rfl

theorem replaceRun_cons_neg (p rep : List Char)
    (consume : List Char → List Char) (c : Char) (cs : List Char)
    (h : startsWith p (c :: cs) = false) :
    replaceRun p rep consume (c :: cs) = c :: replaceRun p rep consume cs := by
  simp only [replaceRun, List.length_cons, replaceGenF, h]
  simp

theorem replaceRun_cons_pos (p rep : List Char)
    (consume : List Char → List Char)
    (hp : 0 < p.length) (hc : ∀ r, (consume r).length ≤ r.length)
    (c : Char) (cs : List Char) (h : startsWith p (c :: cs) = true) :
    replaceRun p rep consume (c :: cs) =
      rep ++ replaceRun p rep consume (consume ((c :: cs).drop p.length)) := by
  simp only [replaceRun, List.length_cons, replaceGenF, h, if_pos]
  congr 1
  apply replaceGenF_fuel p rep consume hp hc
  · have := hc ((c :: cs).drop p.length)
    simp only [List.length_drop, List.length_cons] at this ⊢
    omega
  · exact Nat.le_refl _

/-- A match (i.e. `startsWith p s`) at a position forces the cons shape. -/
theorem replaceRun_pos (p rep : List Char) (consume : List Char → List Char)
    (hp : 0 < p.length) (hc : ∀ r, (consume r).length ≤ r.length)
    (s : List Char) (h : startsWith p s = true) :
    replaceRun p rep consume s =
      rep ++ replaceRun p rep consume (consume (s.drop p.length)) := by
  cases s with
  | nil =>
    have := (startsWith_nil_right p).1 h
    subst this
    simp at hp
  | cons c cs => exact replaceRun_cons_pos p rep consume hp hc c cs h

/-- If the pattern occurs nowhere, the substitution pass is the
identity. -/
theorem replaceRun_id (p rep : List Char) (consume : List Char → List Char)
    (s : List Char) (h : occursIn p s = false) :
    replaceRun p rep consume s = s := by
  induction s with
  | nil => exact replaceRun_nil p rep consume
  | cons c cs ih =>
    simp only [occursIn, Bool.or_eq_false_iff] at h
    rw [replaceRun_cons_neg p rep consume c cs h.1, ih h.2]

/-- First-match decomposition: if the pattern occurs, the input splits
as a match-free prefix `a` followed by a match, and the pass emits `a`,
then the replacement, then the pass on what is left after the match. -/
theorem replaceRun_decomp (p rep : List Char) (consume : List Char → List Char)
    (hp : 0 < p.length) (hc : ∀ r, (consume r).length ≤ r.length)
    (s : List Char) (h : occursIn p s = true) :
    ∃ a r, s = a ++ r ∧ occursIn p a = false ∧ startsWith p r = true ∧
      replaceRun p rep consume s =
        a ++ rep ++ replaceRun p rep consume (consume (r.drop p.length)) := by
  induction s with
  | nil =>
    rw [occursIn] at h
    have := (startsWith_nil_right p).1 h
    subst this
    simp at hp
  | cons c cs ih =>
    by_cases hsw : startsWith p (c :: cs) = true
    · refine ⟨[], c :: cs, by simp, ?_, hsw, ?_⟩
      · cases p with
        | nil => simp at hp
        | cons a ps => rfl
      · simp only [List.nil_append]
        exact replaceRun_pos p rep consume hp hc _ hsw
    · have hsw' : startsWith p (c :: cs) = false := by
        cases hv : startsWith p (c :: cs) with
        | false => rfl
        | true => exact absurd hv hsw
      have h' : occursIn p cs = true := by
        simp only [occursIn, hsw', Bool.false_or] at h
        exact h
      obtain ⟨a, r, hs, ha, hr, heq⟩ := ih h'
      refine ⟨c :: a, r, by simp [hs], ?_, hr, ?_⟩
      · have h1 : startsWith p (c :: a) = false := by
          by_cases hl : p.length ≤ (c :: a).length
          · have e1 : startsWith p ((c :: a) ++ r) = startsWith p (c :: a) :=
              startsWith_append_long _ _ _ hl
            have e2 : (c :: a) ++ r = c :: cs := by simp [hs]
            rw [e2] at e1
            rw [← e1]
            exact hsw'
          · exact startsWith_short _ _ (by omega)
        have h2 : occursIn p (c :: a) = (startsWith p (c :: a) || occursIn p a) :=
          rfl
        rw [h2, h1, ha]
        rfl
      · rw [replaceRun_cons_neg p rep consume c cs hsw', heq]
        simp

/-- Gluing: no occurrence of `q` in `a ++ rep ++ out'` when `a` and
`out'` are `q`-free and `rep` neither contains `q`, nor ends in a
proper prefix of `q`, nor begins in a way that completes a proper
prefix of `q` pending from `a`. -/
theorem no_occ_glue (q a rep out' : List Char)
    (hlen : q.length ≤ rep.length)
    (hA : ∀ j, j < q.length → 1 ≤ j → startsWith (q.drop j) rep = false)
    (hB1 : occursIn q rep = false)
    (hB2 : ∀ i, i < rep.length → (rep.drop i).length < q.length →
        startsWith (rep.drop i) q = false)
    (ha : occursIn q a = false) (hout : occursIn q out' = false) :
    occursIn q (a ++ rep ++ out') = false := by
  by_contra hcon
  have hocc : occursIn q (a ++ (rep ++ out')) = true := by
    rw [← List.append_assoc]
    simpa using hcon
  rcases occursIn_append_cases q a (rep ++ out') hocc with
    h | h | ⟨x1, x2, hx, hne, hlt, hsw⟩
  · simp [ha] at h
  · rcases occursIn_append_cases q rep out' h with
      h' | h' | ⟨y1, y2, hy, hyne, hylt, hysw⟩
    · simp [hB1] at h'
    · simp [hout] at h'
    · obtain ⟨h1, _⟩ := startsWith_append_split q y2 out' hysw
      have hy2 : q.take y2.length = y2 :=
        startsWith_eq _ _ h1 (by simp [List.length_take]; omega)
      have hy2q : startsWith y2 q = true := by
        rw [← hy2]
        exact startsWith_take q y2.length
      have hdrop : rep.drop y1.length = y2 := by
        rw [hy]
        exact List.drop_left y1 y2
      have hpos : 0 < y2.length := List.length_pos.2 hyne
      have hilt : y1.length < rep.length := by
        have := congrArg List.length hy
        simp only [List.length_append] at this
        omega
      have hfull := hB2 y1.length hilt (by rw [hdrop]; omega)
      rw [hdrop] at hfull
      simp [hfull] at hy2q
  · obtain ⟨_, h2⟩ := startsWith_append_split q x2 (rep ++ out') hsw
    have hpos : 0 < x2.length := List.length_pos.2 hne
    have hqd : (q.drop x2.length).length ≤ rep.length := by
      simp only [List.length_drop]
      omega
    rw [startsWith_append_long _ _ _ hqd] at h2
    have := hA x2.length hlt hpos
    simp [this] at h2

/-- Master theorem: after the substitution pass, the pattern occurs
nowhere in the output.  The decidable side conditions say that the
replacement text cannot take part in any occurrence of the pattern. -/
theorem replaceRun_no_occ (p rep : List Char) (consume : List Char → List Char)
    (hp : 0 < p.length) (hc : ∀ r, (consume r).length ≤ r.length)
    (hlen : p.length ≤ rep.length)
    (hA : ∀ j, j < p.length → 1 ≤ j → startsWith (p.drop j) rep = false)
    (hB1 : occursIn p rep = false)
    (hB2 : ∀ i, i < rep.length → (rep.drop i).length < p.length →
        startsWith (rep.drop i) p = false)
    (s : List Char) : occursIn p (replaceRun p rep consume s) = false := by
  suffices H : ∀ n (s : List Char), s.length ≤ n →
      occursIn p (replaceRun p rep consume s) = false from
    H s.length s (Nat.le_refl _)
  intro n
  induction n with
  | zero =>
    intro s hs
    have : s = [] := List.length_eq_zero.1 (by omega)
    subst this
    rw [replaceRun_nil, occursIn]
    cases p with
    | nil => simp at hp
    | cons a ps => rfl
  | succ m ih =>
    intro s hs
    cases hocc : occursIn p s with
    | false =>
      rw [replaceRun_id p rep consume s hocc]
      exact hocc
    | true =>
      obtain ⟨a, r, hsr, ha, hr, heq⟩ :=
        replaceRun_decomp p rep consume hp hc s hocc
      rw [heq]
      have hout : occursIn p
          (replaceRun p rep consume (consume (r.drop p.length))) = false := by
        apply ih
        have hr1 : p.length ≤ r.length := startsWith_length_le _ _ hr
        have h2 := hc (r.drop p.length)
        have hsl := congrArg List.length hsr
        simp only [List.length_append] at hsl
        simp only [List.length_drop] at h2
        omega
      exact no_occ_glue p a rep _ hlen hA hB1 hB2 ha hout

/-- Preservation: a pass substituting pattern `p` cannot create an
occurrence of an unrelated pattern `q` that was absent from the
input, provided the replacement text cannot take part in one. -/
theorem replaceRun_pres (p rep : List Char) (consume : List Char → List Char)
    (hp : 0 < p.length) (hc : ∀ r, (consume r).length ≤ r.length)
    (hcs : ∀ r, ∃ x, x ++ consume r = r)
    (q : List Char)
    (hlen : q.length ≤ rep.length)
    (hA : ∀ j, j < q.length → 1 ≤ j → startsWith (q.drop j) rep = false)
    (hB1 : occursIn q rep = false)
    (hB2 : ∀ i, i < rep.length → (rep.drop i).length < q.length →
        startsWith (rep.drop i) q = false)
    (s : List Char) (hq : occursIn q s = false) :
    occursIn q (replaceRun p rep consume s) = false := by
  suffices H : ∀ n (s : List Char), s.length ≤ n → occursIn q s = false →
      occursIn q (replaceRun p rep consume s) = false from
    H s.length s (Nat.le_refl _) hq
  intro n
  induction n with
  | zero =>
    intro s hs hq'
    have : s = [] := List.length_eq_zero.1 (by omega)
    subst this
    rw [replaceRun_nil]
    exact hq'
  | succ m ih =>
    intro s hs hq'
    cases hocc : occursIn p s with
    | false =>
      rw [replaceRun_id p rep consume s hocc]
      exact hq'
    | true =>
      obtain ⟨a, r, hsr, _, hr, heq⟩ :=
        replaceRun_decomp p rep consume hp hc s hocc
      rw [heq]
      have ha : occursIn q a = false := by
        cases hv : occursIn q a with
        | false => rfl
        | true =>
          have := occursIn_append_left q a r hv
          rw [← hsr, hq'] at this
          exact absurd this (by simp)
      have hsub : occursIn q (consume (r.drop p.length)) = false := by
        obtain ⟨x, hx⟩ := hcs (r.drop p.length)
        cases hv : occursIn q (consume (r.drop p.length)) with
        | false => rfl
        | true =>
          have h1 : occursIn q (r.drop p.length) = true := by
            rw [← hx]
            exact occursIn_append_right _ _ _ hv
          have h2 : occursIn q r = true := by
            rw [← List.take_append_drop p.length r]
            exact occursIn_append_right _ _ _ h1
          have h3 : occursIn q s = true := by
            rw [hsr]
            exact occursIn_append_right _ _ _ h2
          rw [hq'] at h3
          exact absurd h3 (by simp)
      have hout := ih (consume (r.drop p.length)) (by
        have hr1 : p.length ≤ r.length := startsWith_length_le _ _ hr
        have h2 := hc (r.drop p.length)
        have hsl := congrArg List.length hsr
        simp only [List.length_append] at hsl
        simp only [List.length_drop] at h2
        omega) hsub
      exact no_occ_glue q a rep _ hlen hA hB1 hB2 ha hout

/-- No `memory.copy` survives its substitution pass. -/
theorem copy_no_occ (s : List Char) :
    occursIn copyPat (replaceCopy s) = false :=
  replaceRun_no_occ copyPat callCpy consumeCopyOps (by decide)
    consumeCopyOps_length (by decide) (by decide) (by decide) (by decide) s

/-- No `memory.fill` survives its substitution pass. -/
theorem fill_no_occ (s : List Char) :
    occursIn fillPat (replaceFill s) = false :=
  replaceRun_no_occ fillPat callSet consumeFillOps (by decide)
    consumeFillOps_length (by decide) (by decide) (by decide) (by decide) s

/-- The fill pass cannot create a `memory.copy` occurrence. -/
theorem fill_preserves_no_copy (s : List Char)
    (h : occursIn copyPat s = false) :
    occursIn copyPat (replaceFill s) = false :=
  replaceRun_pres fillPat callSet consumeFillOps (by decide)
    consumeFillOps_length consumeFillOps_sfx copyPat (by decide) (by decide)
    (by decide) (by decide) s h

/-! ### Detector, injector and pipeline (`polyfill_wat.py` lines 4-103) -/

/-- `'memory.copy' in content` (line 9). -/
def detectCopy (content : List Char) : Bool := occursIn copyPat content

/-- `'memory.fill' in content` (line 10). -/
def detectFill (content : List Char) : Bool := occursIn fillPat content

/-- The synthesized memcpy-equivalent text (lines 23-60), byte for
byte, newlines escaped. -/
def memcpyFunc : List Char :=
  "\n  (func $memcpy (param $dest i32) (param $src i32) (param $len i32)\n    (local $i i32)\n    \n    (if (i32.gt_u (local.get $dest) (local.get $src))\n      (then\n        ;; Backward copy (dest > src)\n        (local.set $i (local.get $len))\n        (block $done_back\n          (loop $loop_back\n            (br_if $done_back (i32.eqz (local.get $i)))\n            (local.set $i (i32.sub (local.get $i) (i32.const 1)))\n            (i32.store8\n              (i32.add (local.get $dest) (local.get $i))\n              (i32.load8_u (i32.add (local.get $src) (local.get $i)))\n            )\n            (br $loop_back)\n          )\n        )\n      )\n      (else\n        ;; Forward copy (dest <= src)\n        (local.set $i (i32.const 0))\n        (block $done_fwd\n          (loop $loop_fwd\n            (br_if $done_fwd (i32.ge_u (local.get $i) (local.get $len)))\n            (i32.store8\n              (i32.add (local.get $dest) (local.get $i))\n              (i32.load8_u (i32.add (local.get $src) (local.get $i)))\n            )\n            (local.set $i (i32.add (local.get $i) (i32.const 1)))\n            (br $loop_fwd)\n          )\n        )\n      )\n    )\n  )\n".toList

/-- The synthesized memset-equivalent text (lines 62-78), byte for
byte, newlines escaped. -/
def memsetFunc : List Char :=
  "\n  (func $memset (param $dest i32) (param $val i32) (param $len i32)\n    (local $i i32)\n    (local.set $i (i32.const 0))\n    (block $done\n      (loop $loop\n        (br_if $done (i32.ge_u (local.get $i) (local.get $len)))\n        (i32.store8\n          (i32.add (local.get $dest) (local.get $i))\n          (local.get $val)\n        )\n        (local.set $i (i32.add (local.get $i) (i32.const 1)))\n        (br $loop)\n      )\n    )\n  )\n".toList

/-- `content.rfind(')')` and the slice-splice around it (lines 80-91):
split `content` into the part before the last `')'` and the part after
it; `none` when no `')'` exists (`rfind` returns `-1`). -/
def splitAtLastParen : List Char → Option (List Char × List Char)
  | [] => none
  | c :: cs =>
    match splitAtLastParen cs with
    | some (a, b) => some (c :: a, b)
    | none => if c = ')' then some ([], cs) else none

/-- Message of `raise Exception("Invalid WAT file")` (line 83). -/
def errInvalidWat : String := "Invalid WAT file"

/-- Lines 85-89: the polyfill text to be injected. -/
def injectedCode (has_copy has_fill : Bool) : List Char :=
  (if has_copy then memcpyFunc else []) ++ (if has_fill then memsetFunc else [])

/-- Lines 80-91: locate the last `')'`, abort when there is none, else
splice the injected code in just before it. -/
def injectResult (content : List Char) : Except String (List Char) :=
  match splitAtLastParen content with
  | none => Except.error errInvalidWat
  | some (pre, post) =>
    Except.ok (pre ++ injectedCode (detectCopy content) (detectFill content) ++
      ')' :: post)

/-- The whole pass `polyfill_wat` (lines 4-103), with the file system
abstracted away: the returned value is the text written to the output
path, the error is the raised exception (which prevents any write). -/
def polyfillWat (content : List Char) : Except String (List Char) :=
  if !detectCopy content && !detectFill content then Except.ok content
  else
    match injectResult content with
    | Except.error e => Except.error e
    | Except.ok injected =>
      let c1 := if detectCopy content then replaceCopy injected else injected
      let c2 := if detectFill content then replaceFill c1 else c1
      Except.ok c2

theorem splitAtLastParen_eq_none (s : List Char) :
    splitAtLastParen s = none ↔ ')' ∉ s := by
  induction s with
  | nil => simp [splitAtLastParen]
  | cons c cs ih =>
    cases hcs : splitAtLastParen cs with
    | some ab =>
      have hmem : ')' ∈ cs := by
        by_contra hmem
        rw [← ih, hcs] at hmem
        simp at hmem
      simp only [splitAtLastParen, hcs]
      constructor
      · intro hx
        exact absurd hx (by simp)
      · intro hx
        exact absurd (List.mem_cons_of_mem c hmem) hx
    | none =>
      have hcs' : ')' ∉ cs := ih.1 hcs
      simp only [splitAtLastParen, hcs]
      by_cases hc : c = ')'
      · subst hc
        rw [if_pos rfl]
        constructor
        · intro hx
          exact absurd hx (by simp)
        · intro hx
          exact absurd (List.mem_cons_self _ _) hx
      · rw [if_neg hc]
        constructor
        · intro _ hx
          rcases List.mem_cons.1 hx with h1 | h1
          · exact hc h1.symm
          · exact hcs' h1
        · intro _
          rfl

theorem splitAtLastParen_spec (s a b : List Char)
    (h : splitAtLastParen s = some (a, b)) :
    s = a ++ ')' :: b ∧ ')' ∉ b := by
  induction s generalizing a b with
  | nil => simp [splitAtLastParen] at h
  | cons c cs ih =>
    cases hcs : splitAtLastParen cs with
    | some ab =>
      obtain ⟨a', b'⟩ := ab
      simp only [splitAtLastParen, hcs, Option.some.injEq, Prod.mk.injEq] at h
      obtain ⟨h1, h2⟩ := h
      subst h1
      subst h2
      obtain ⟨e, hb⟩ := ih a' b' hcs
      exact ⟨by simp [e], hb⟩
    | none =>
      simp only [splitAtLastParen, hcs] at h
      split at h
      · rename_i hc
        simp only [Option.some.injEq, Prod.mk.injEq] at h
        obtain ⟨h1, h2⟩ := h
        subst h1
        subst h2
        subst hc
        exact ⟨rfl, (splitAtLastParen_eq_none cs).1 hcs⟩
      · exact absurd h (by simp)

theorem startsWith_self (l : List Char) : startsWith l l = true := by
  have := startsWith_take l l.length
  rwa [List.take_length] at this

/-- C4: for every input text containing neither `memory.copy` nor
`memory.fill`, the pass returns the input byte-for-byte: nothing is
injected and nothing rewritten. -/
theorem polyfill_noop_identity (s : List Char)
    (hc : occursIn copyPat s = false) (hf : occursIn fillPat s = false) :
    polyfillWat s = Except.ok s := by
  unfold polyfillWat detectCopy detectFill
  rw [hc, hf]
  rfl

theorem polyfill_noop_identity_witness :
    polyfillWat "(module)".toList = Except.ok "(module)".toList :=
  polyfill_noop_identity _ (by decide) (by decide)

/-- C3 counterexample: `"hello"` contains no `')'`, yet the pass does
not abort — it takes the no-op path and produces output text. -/
theorem no_paren_cex :
    ')' ∉ "hello".toList ∧
      polyfillWat "hello".toList = Except.ok "hello".toList :=
  ⟨by decide, rfl⟩

/-- C3 amended: for every input in which a bulk-memory mnemonic was
detected and which contains no `')'`, the pass aborts with the
structural error (before any output is produced). -/
theorem no_paren_structural_error (s : List Char)
    (hm : detectCopy s = true ∨ detectFill s = true) (hp : ')' ∉ s) :
    polyfillWat s = Except.error errInvalidWat := by
  have hsplit : splitAtLastParen s = none := (splitAtLastParen_eq_none s).2 hp
  rcases hm with h | h <;> simp [polyfillWat, injectResult, hsplit, h]

theorem no_paren_structural_error_witness :
    polyfillWat "memory.copy".toList = Except.error errInvalidWat :=
  no_paren_structural_error _ (Or.inl (by decide)) (by decide)

/-- C5: with a detected mnemonic and at least one `')'`, the injector
returns the original buffer with exactly the (nonempty) synthesized
code inserted immediately before the last `')'`; the surrounding text
`a` and `b` is unchanged. -/
theorem injector_inserts_before_last_paren (s a b : List Char)
    (hm : detectCopy s = true ∨ detectFill s = true)
    (h : splitAtLastParen s = some (a, b)) :
    s = a ++ ')' :: b ∧ ')' ∉ b ∧
      injectResult s =
        Except.ok (a ++ injectedCode (detectCopy s) (detectFill s) ++
          ')' :: b) ∧
      injectedCode (detectCopy s) (detectFill s) ≠ [] := by
  obtain ⟨e, hb⟩ := splitAtLastParen_spec s a b h
  have h1 : memcpyFunc ≠ [] := by decide
  have h2 : memsetFunc ≠ [] := by decide
  refine ⟨e, hb, ?_, ?_⟩
  · unfold injectResult
    rw [h]
  · rcases hm with hm | hm
    · rw [hm]
      intro hx
      simp only [injectedCode, if_pos] at hx
      rcases List.append_eq_nil.1 hx with ⟨h1', _⟩
      exact h1 h1'
    · rw [hm]
      intro hx
      simp only [injectedCode] at hx
      rcases List.append_eq_nil.1 hx with ⟨_, h2'⟩
      exact h2 (by simpa using h2')

theorem injector_witness :
    "(memory.copy)".toList = "(memory.copy".toList ++ ')' :: ([] : List Char) ∧
    ')' ∉ ([] : List Char) ∧
    injectResult "(memory.copy)".toList =
      Except.ok ("(memory.copy".toList ++
        injectedCode (detectCopy "(memory.copy)".toList)
          (detectFill "(memory.copy)".toList) ++ ')' :: ([] : List Char)) ∧
    injectedCode (detectCopy "(memory.copy)".toList)
      (detectFill "(memory.copy)".toList) ≠ [] :=
  injector_inserts_before_last_paren _ _ _ (Or.inl (by decide)) (by decide)

/-- C7: when both mnemonics are detected the injected text is the
memcpy function followed by the memset function (copy precedes fill);
when only one is detected, only that function is injected. -/
theorem injection_ordering (s a b : List Char)
    (h : splitAtLastParen s = some (a, b)) :
    (detectCopy s = true → detectFill s = true →
      injectResult s =
        Except.ok (a ++ (memcpyFunc ++ memsetFunc) ++ ')' :: b)) ∧
    (detectCopy s = true → detectFill s = false →
      injectResult s = Except.ok (a ++ memcpyFunc ++ ')' :: b)) ∧
    (detectCopy s = false → detectFill s = true →
      injectResult s = Except.ok (a ++ memsetFunc ++ ')' :: b)) := by
  refine ⟨?_, ?_, ?_⟩ <;> intro h1 h2 <;>
    simp [injectResult, h, injectedCode, h1, h2]

theorem injection_ordering_witness :
    injectResult "(memory.copy memory.fill)".toList =
      Except.ok ("(memory.copy memory.fill".toList ++
        (memcpyFunc ++ memsetFunc) ++ ')' :: ([] : List Char)) :=
  (injection_ordering _ _ _ (by decide)).1 (by decide) (by decide)

/-- C2: the rewriter leaves no occurrence of a replaced mnemonic in its
output (also after both passes run in sequence), and both the bare
mnemonic and the form with explicit zero operands are replaced whole,
leaving no orphaned operand text. -/
theorem rewriter_complete (s : List Char) :
    occursIn copyPat (replaceCopy s) = false ∧
    occursIn fillPat (replaceFill s) = false ∧
    occursIn copyPat (replaceFill (replaceCopy s)) = false ∧
    occursIn fillPat (replaceFill (replaceCopy s)) = false ∧
    replaceCopy "(memory.copy 0 0)".toList = "(call $memcpy)".toList ∧
    replaceCopy "(memory.copy)".toList = "(call $memcpy)".toList ∧
    replaceFill "(memory.fill 0)".toList = "(call $memset)".toList ∧
    replaceFill "(memory.fill)".toList = "(call $memset)".toList :=
  ⟨copy_no_occ s, fill_no_occ s,
   fill_preserves_no_copy _ (copy_no_occ s), fill_no_occ _,
   by decide, by decide, by decide, by decide⟩

/-- C9: a `memory.copy` followed by only ONE zero operand is replaced
in its short (bare) form and the lone operand text survives the
rewrite; symmetrically, `memory.fill` followed by TWO zero operands
consumes only the first one and the second survives. -/
theorem partial_operand_kept (t : List Char) (ht : wsZero t = none) :
    replaceCopy (copyPat ++ ' ' :: '0' :: t) =
      callCpy ++ ' ' :: '0' :: replaceCopy t ∧
    replaceFill (fillPat ++ ' ' :: '0' :: ' ' :: '0' :: t) =
      callSet ++ ' ' :: '0' :: replaceFill t := by
  constructor
  · have hsw : startsWith copyPat (copyPat ++ ' ' :: '0' :: t) = true :=
      startsWith_append_of _ _ _ (startsWith_self copyPat)
    have step1 := replaceRun_pos copyPat callCpy consumeCopyOps (by decide)
      consumeCopyOps_length _ hsw
    rw [List.drop_left] at step1
    have e1 : wsZero (' ' :: '0' :: t) = some t := rfl
    have e2 : consumeCopyOps (' ' :: '0' :: t) = ' ' :: '0' :: t := by
      simp only [consumeCopyOps, e1, ht]
    rw [e2] at step1
    have n1 : startsWith copyPat (' ' :: '0' :: t) = false := rfl
    have n2 : startsWith copyPat ('0' :: t) = false := rfl
    show replaceRun copyPat callCpy consumeCopyOps _ = _
    rw [step1, replaceRun_cons_neg _ _ _ _ _ n1, replaceRun_cons_neg _ _ _ _ _ n2]
    rfl
  · have hsw : startsWith fillPat
        (fillPat ++ ' ' :: '0' :: ' ' :: '0' :: t) = true :=
      startsWith_append_of _ _ _ (startsWith_self fillPat)
    have step1 := replaceRun_pos fillPat callSet consumeFillOps (by decide)
      consumeFillOps_length _ hsw
    rw [List.drop_left] at step1
    have e2 : consumeFillOps (' ' :: '0' :: ' ' :: '0' :: t) =
        ' ' :: '0' :: t := rfl
    rw [e2] at step1
    have n1 : startsWith fillPat (' ' :: '0' :: t) = false := rfl
    have n2 : startsWith fillPat ('0' :: t) = false := rfl
    show replaceRun fillPat callSet consumeFillOps _ = _
    rw [step1, replaceRun_cons_neg _ _ _ _ _ n1, replaceRun_cons_neg _ _ _ _ _ n2]
    rfl

theorem partial_operand_kept_witness :
    replaceCopy (copyPat ++ ' ' :: '0' :: ([] : List Char)) =
      callCpy ++ ' ' :: '0' :: replaceCopy ([] : List Char) :=
  (partial_operand_kept [] (by decide)).1

/-! ### Semantics of the synthesized functions (C1, C6)

The WAT bodies of `memcpyFunc` and `memsetFunc`, transcribed
instruction by instruction.  Linear memory is `Nat → Nat`; the three
parameters are i32 values, so they are reduced modulo
`WSIZE = 2 ^ 32` on entry, `i32.add` address arithmetic wraps modulo
`WSIZE`, and `i32.store8` keeps only the low byte of the stored value.
Inside the loops the counter increments/decrements cannot wrap (the
counter stays below `len < WSIZE`), so they are plain `Nat`
successors. -/

def WSIZE : Nat := 4294967296

/-- `i32.store8`: write the low byte of `v` at address `a`. -/
def store8 (m : Nat → Nat) (a v : Nat) : Nat → Nat :=
  fun x => if x = a then v % 256 else m x

/-- Backward loop of `$memcpy` (`$loop_back`): the counter `$i` starts
at `$len` and is decremented before each load/store, so the iteration
entered with counter `i + 1` copies byte `src + i` to `dest + i`; the
loop exits when the counter reaches zero (`i32.eqz`). -/
def cpyBack (dest src : Nat) : Nat → (Nat → Nat) → (Nat → Nat)
  | 0, m => m
  | i + 1, m =>
    cpyBack dest src i (store8 m ((dest + i) % WSIZE) (m ((src + i) % WSIZE)))

/-- Forward loop of `$memcpy` (`$loop_fwd`): `$i` runs up from 0 while
`$i < $len` (`i32.ge_u` exits); `n` is the number of remaining
iterations `len - i`. -/
def cpyFwdAux (dest src : Nat) : Nat → Nat → (Nat → Nat) → (Nat → Nat)
  | 0, _, m => m
  | n + 1, i, m =>
    cpyFwdAux dest src n (i + 1)
      (store8 m ((dest + i) % WSIZE) (m ((src + i) % WSIZE)))

/-- `$memcpy` of `memcpyFunc`: `(i32.gt_u $dest $src)` selects the
backward loop, otherwise the forward loop runs. -/
def memcpyRun (dest src len : Nat) (m : Nat → Nat) : Nat → Nat :=
  if src % WSIZE < dest % WSIZE then
    cpyBack (dest % WSIZE) (src % WSIZE) (len % WSIZE) m
  else
    cpyFwdAux (dest % WSIZE) (src % WSIZE) (len % WSIZE) 0 m

/-- Loop of `$memset`: `$i` runs up from 0 while `$i < $len`, storing
the low byte of `$val` at `dest + i`; `n` is `len - i`. -/
def setFwdAux (dest v : Nat) : Nat → Nat → (Nat → Nat) → (Nat → Nat)
  | 0, _, m => m
  | n + 1, i, m => setFwdAux dest v n (i + 1) (store8 m ((dest + i) % WSIZE) v)

/-- `$memset` of `memsetFunc`. -/
def memsetRun (dest v len : Nat) (m : Nat → Nat) : Nat → Nat :=
  setFwdAux (dest % WSIZE) (v % WSIZE) (len % WSIZE) 0 m

/-- Reference semantics following the spec's words: a `memmove` of
`len` bytes from `src` to `dest`, all reads from the pre-state. -/
def refMove (dest src len : Nat) (m : Nat → Nat) : Nat → Nat :=
  fun x => if dest ≤ x ∧ x < dest + len then m (src + (x - dest)) else m x

/-- Reference semantics following the spec's words: fill
`[dest, dest+len)` with the low byte of `v`. -/
def refFill (dest v len : Nat) (m : Nat → Nat) : Nat → Nat :=
  fun x => if dest ≤ x ∧ x < dest + len then v % 256 else m x

theorem cpyBack_spec (d s len : Nat) (m0 : Nat → Nat)
    (hb : ∀ x, m0 x < 256) (hd : d + len ≤ WSIZE) (hs : s + len ≤ WSIZE)
    (hds : s < d) :
    ∀ n, n ≤ len →
      cpyBack d s n
        (fun x => if d + n ≤ x ∧ x < d + len then m0 (s + (x - d)) else m0 x) =
      fun x => if d ≤ x ∧ x < d + len then m0 (s + (x - d)) else m0 x := by
  intro n
  induction n with
  | zero =>
    intro _
    simp only [cpyBack, Nat.add_zero]
  | succ k ih =>
    intro hk
    have hdm : (d + k) % WSIZE = d + k := Nat.mod_eq_of_lt (by omega)
    have hsm : (s + k) % WSIZE = s + k := Nat.mod_eq_of_lt (by omega)
    rw [cpyBack, hdm, hsm]
    have hload :
        (if d + (k + 1) ≤ s + k ∧ s + k < d + len then m0 (s + (s + k - d))
          else m0 (s + k)) = m0 (s + k) := if_neg (by omega)
    rw [hload]
    have hstep :
        store8
          (fun x => if d + (k + 1) ≤ x ∧ x < d + len then m0 (s + (x - d))
            else m0 x)
          (d + k) (m0 (s + k)) =
        fun x => if d + k ≤ x ∧ x < d + len then m0 (s + (x - d))
          else m0 x := by
      funext x
      simp only [store8]
      by_cases hx : x = d + k
      · subst hx
        rw [if_pos rfl, Nat.mod_eq_of_lt (hb _), if_pos (by omega)]
        congr 1
        omega
      · rw [if_neg hx]
        show (if d + (k + 1) ≤ x ∧ x < d + len then m0 (s + (x - d))
            else m0 x) =
          if d + k ≤ x ∧ x < d + len then m0 (s + (x - d)) else m0 x
        by_cases hx2 : d + (k + 1) ≤ x ∧ x < d + len
        · rw [if_pos hx2, if_pos (by omega)]
        · rw [if_neg hx2, if_neg (by omega)]
    rw [hstep]
    exact ih (by omega)

theorem cpyFwd_spec (d s len : Nat) (m0 : Nat → Nat)
    (hb : ∀ x, m0 x < 256) (hd : d + len ≤ WSIZE) (hs : s + len ≤ WSIZE)
    (hsd : d ≤ s) :
    ∀ n i, i + n = len →
      cpyFwdAux d s n i
        (fun x => if d ≤ x ∧ x < d + i then m0 (s + (x - d)) else m0 x) =
      fun x => if d ≤ x ∧ x < d + len then m0 (s + (x - d)) else m0 x := by
  intro n
  induction n with
  | zero =>
    intro i hi
    have : i = len := by omega
    subst this
    simp only [cpyFwdAux]
  | succ k ih =>
    intro i hi
    have hdm : (d + i) % WSIZE = d + i := Nat.mod_eq_of_lt (by omega)
    have hsm : (s + i) % WSIZE = s + i := Nat.mod_eq_of_lt (by omega)
    rw [cpyFwdAux, hdm, hsm]
    have hload :
        (if d ≤ s + i ∧ s + i < d + i then m0 (s + (s + i - d))
          else m0 (s + i)) = m0 (s + i) := if_neg (by omega)
    rw [hload]
    have hstep :
        store8 (fun x => if d ≤ x ∧ x < d + i then m0 (s + (x - d)) else m0 x)
          (d + i) (m0 (s + i)) =
        fun x => if d ≤ x ∧ x < d + (i + 1) then m0 (s + (x - d))
          else m0 x := by
      funext x
      simp only [store8]
      by_cases hx : x = d + i
      · subst hx
        rw [if_pos rfl, Nat.mod_eq_of_lt (hb _), if_pos (by omega)]
        congr 1
        omega
      · rw [if_neg hx]
        show (if d ≤ x ∧ x < d + i then m0 (s + (x - d)) else m0 x) =
          if d ≤ x ∧ x < d + (i + 1) then m0 (s + (x - d)) else m0 x
        by_cases hx2 : d ≤ x ∧ x < d + i
        · rw [if_pos hx2, if_pos (by omega)]
        · rw [if_neg hx2, if_neg (by omega)]
    rw [hstep]
    exact ih (i + 1) (by omega)

theorem setFwd_spec (d v len : Nat) (m0 : Nat → Nat)
    (hd : d + len ≤ WSIZE) :
    ∀ n i, i + n = len →
      setFwdAux d v n i
        (fun x => if d ≤ x ∧ x < d + i then v % 256 else m0 x) =
      fun x => if d ≤ x ∧ x < d + len then v % 256 else m0 x := by
  intro n
  induction n with
  | zero =>
    intro i hi
    have : i = len := by omega
    subst this
    simp only [setFwdAux]
  | succ k ih =>
    intro i hi
    have hdm : (d + i) % WSIZE = d + i := Nat.mod_eq_of_lt (by omega)
    rw [setFwdAux, hdm]
    have hstep :
        store8 (fun x => if d ≤ x ∧ x < d + i then v % 256 else m0 x)
          (d + i) v =
        fun x => if d ≤ x ∧ x < d + (i + 1) then v % 256 else m0 x := by
      funext x
      simp only [store8]
      by_cases hx : x = d + i
      · subst hx
        rw [if_pos rfl, if_pos (by omega)]
      · rw [if_neg hx]
        show (if d ≤ x ∧ x < d + i then v % 256 else m0 x) =
          if d ≤ x ∧ x < d + (i + 1) then v % 256 else m0 x
        by_cases hx2 : d ≤ x ∧ x < d + i
        · rw [if_pos hx2, if_pos (by omega)]
        · rw [if_neg hx2, if_neg (by omega)]
    rw [hstep]
    exact ih (i + 1) (by omega)

/-- C1: on a byte memory, with both regions inside the 2^32-byte
address space, the synthesized `$memcpy` is exactly the reference move
(`memmove`), including on overlapping regions; and a zero-length call
changes nothing. -/
theorem memcpy_is_memmove (dest src len : Nat) (m : Nat → Nat)
    (hb : ∀ x, m x < 256) (hd : dest + len ≤ WSIZE) (hs : src + len ≤ WSIZE)
    (hlw : len < WSIZE) :
    memcpyRun dest src len m = refMove dest src len m ∧
    memcpyRun dest src 0 m = m := by
  have hzero : ∀ d' s', memcpyRun d' s' 0 m = m := by
    intro d' s'
    unfold memcpyRun
    simp only [Nat.zero_mod]
    split
    · rfl
    · rfl
  refine ⟨?_, hzero dest src⟩
  cases Nat.eq_zero_or_pos len with
  | inl h0 =>
    subst h0
    rw [hzero dest src]
    funext x
    show m x = if dest ≤ x ∧ x < dest + 0 then m (src + (x - dest)) else m x
    rw [if_neg (by omega)]
  | inr hpos =>
    have hdw : dest < WSIZE := by omega
    have hsw : src < WSIZE := by omega
    unfold memcpyRun
    rw [Nat.mod_eq_of_lt hdw, Nat.mod_eq_of_lt hsw, Nat.mod_eq_of_lt hlw]
    by_cases hcmp : src < dest
    · rw [if_pos hcmp]
      have hinit :
          (fun x => if dest + len ≤ x ∧ x < dest + len then
            m (src + (x - dest)) else m x) = m := by
        funext x
        rw [if_neg (by omega)]
      have hspec := cpyBack_spec dest src len m hb hd hs hcmp len
        (Nat.le_refl _)
      rw [hinit] at hspec
      rw [hspec]
      rfl
    · rw [if_neg hcmp]
      have hinit :
          (fun x => if dest ≤ x ∧ x < dest + 0 then
            m (src + (x - dest)) else m x) = m := by
        funext x
        rw [if_neg (by omega)]
      have hspec := cpyFwd_spec dest src len m hb hd hs (by omega) len 0
        (by omega)
      rw [hinit] at hspec
      rw [hspec]
      rfl

theorem memcpy_is_memmove_witness :
    memcpyRun 5 0 10 (fun x => x % 256) = refMove 5 0 10 (fun x => x % 256) :=
  (memcpy_is_memmove 5 0 10 (fun x => x % 256)
    (fun x => Nat.mod_lt x (by decide)) (by decide) (by decide)
    (by decide)).1

/-- C6: with the region inside the 2^32-byte address space, the
synthesized `$memset` fills `[dest, dest+len)` with the low byte of
the fill value and leaves every other byte unchanged; a zero-length
call changes nothing. -/
theorem memset_correct (dest v len : Nat) (m : Nat → Nat)
    (hd : dest + len ≤ WSIZE) (hlw : len < WSIZE) :
    memsetRun dest v len m = refFill dest v len m ∧
    memsetRun dest v 0 m = m := by
  have hzero : memsetRun dest v 0 m = m := by
    unfold memsetRun
    simp only [Nat.zero_mod]
    rfl
  refine ⟨?_, hzero⟩
  cases Nat.eq_zero_or_pos len with
  | inl h0 =>
    subst h0
    rw [hzero]
    funext x
    show m x = if dest ≤ x ∧ x < dest + 0 then v % 256 else m x
    rw [if_neg (by omega)]
  | inr hpos =>
    have hdw : dest < WSIZE := by omega
    unfold memsetRun
    rw [Nat.mod_eq_of_lt hdw, Nat.mod_eq_of_lt hlw]
    have hinit :
        (fun x => if dest ≤ x ∧ x < dest + 0 then (v % WSIZE) % 256
          else m x) = m := by
      funext x
      rw [if_neg (by omega)]
    have hspec := setFwd_spec dest (v % WSIZE) len m hd len 0 (by omega)
    rw [hinit] at hspec
    rw [hspec]
    funext x
    show (if dest ≤ x ∧ x < dest + len then (v % WSIZE) % 256 else m x) =
      if dest ≤ x ∧ x < dest + len then v % 256 else m x
    rw [Nat.mod_mod_of_dvd v (by decide)]

theorem memset_correct_witness :
    (List.range 8).map (memsetRun 0 255 4 (fun _ => 0)) =
      [255, 255, 255, 255, 0, 0, 0, 0] := by
  have h := (memset_correct 0 255 4 (fun _ => 0) (by decide) (by decide)).1
  rw [h]
  decide

/-! ### Command line guard (`polyfill_wat.py` lines 105-110) -/

/-- The usage line printed on a wrong argument count (line 107). -/
def usageMsg : String := "Usage: python3 polyfill_wat.py <input.wat> <output.wat>"

/-- The `len(sys.argv) != 3` check (line 106): with exactly three argv
entries (program name, input path, output path) produce the two paths,
otherwise nothing. -/
def checkArgs (argv : List String) : Option (String × String) :=
  if h : argv.length = 3 then
    some (argv.get ⟨1, by omega⟩, argv.get ⟨2, by omega⟩)
  else none

/-- Lines 105-110 with I/O abstracted: on a wrong argument count the
script prints the usage message on standard output and exits with
status 1 without invoking the pass (so nothing is read or written);
the error value carries that message and exit status.  Otherwise the
two paths are handed to `polyfill_wat`. -/
def mainGuard (argv : List String) : Except (String × Nat) (String × String) :=
  match checkArgs argv with
  | none => Except.error (usageMsg, 1)
  | some x => Except.ok x

/-- C8: any invocation whose argument count differs from three (the
program name plus the two paths) is rejected with the usage message
and exit status 1, before the pass runs. -/
theorem usage_guard (argv : List String) (h : argv.length ≠ 3) :
    mainGuard argv = Except.error (usageMsg, 1) := by
  unfold mainGuard checkArgs
  rw [dif_neg h]

theorem usage_guard_witness :
    mainGuard ["polyfill_wat.py"] = Except.error (usageMsg, 1) :=
  usage_guard _ (by decide)

/-! ### Account-hash utility (`src/contracts/get_account_hash.py`)

The Blake2b-256 digest itself is `hashlib.blake2b(digest_size=32)`, a
Python standard-library primitive external to this repository; it
enters the model as an abstract byte-level function
`H : List Nat → List Nat`.  Everything the script itself does —
hex parsing, tag dispatch, key-length checks, preimage construction
and output formatting — is embedded below. -/

/-- Hex digit value, as accepted by Python's `bytes.fromhex`. -/
def hexVal (c : Char) : Option Nat :=
  if '0' ≤ c ∧ c ≤ '9' then some (c.toNat - '0'.toNat)
  else if 'a' ≤ c ∧ c ≤ 'f' then some (c.toNat - 'a'.toNat + 10)
  else if 'A' ≤ c ∧ c ≤ 'F' then some (c.toNat - 'A'.toNat + 10)
  else none

/-- ASCII whitespace, skipped by `bytes.fromhex` between byte pairs. -/
def isASCIIws (c : Char) : Bool :=
  c == ' ' || c == '\t' || c == '\n' || c == '\x0b' || c == '\x0c' || c == '\r'

/-- `bytes.fromhex`: skip ASCII whitespace, then read two immediately
adjacent hex digits per byte; `none` (Python raises `ValueError`) on
any other character or an odd number of digits. -/
def fromhex : List Char → Option (List Nat)
  | [] => some []
  | c :: cs =>
    if isASCIIws c then fromhex cs
    else
      match hexVal c, cs with
      | some hi, d :: cs' =>
        match hexVal d, fromhex cs' with
        | some lo, some bs => some ((16 * hi + lo) :: bs)
        | _, _ => none
      | _, _ => none

/-- UTF-8 bytes of an algorithm name; the two names used
(`'ed25519'`, `'secp256k1'`) are pure ASCII, where UTF-8 is the
identity on code points. -/
def utf8enc (s : List Char) : List Nat := s.map Char.toNat

/-- Lowercase hex digit for a nibble. -/
def hexDigitChar (n : Nat) : Char :=
  if n < 10 then Char.ofNat ('0'.toNat + n)
  else Char.ofNat ('a'.toNat + (n - 10))

/-- `hexdigest()`: two lowercase hex digits per byte. -/
def toHexStr (bs : List Nat) : List Char :=
  (bs.map (fun b => [hexDigitChar (b / 16), hexDigitChar (b % 16)])).flatten

/-- Tag dispatch with key-length validation (lines 24-36): `01` is
`ed25519` with a 32-byte key, `02` is `secp256k1` with a 33-byte key;
anything else exits. -/
def algoOf (tag : List Char) (keyLen : Nat) : Option (List Char) :=
  if tag = "01".toList then
    if keyLen = 32 then some "ed25519".toList else none
  else if tag = "02".toList then
    if keyLen = 33 then some "secp256k1".toList else none
  else none

/-- The script body (lines 14-46) over an abstract hash `H`: split the
two-character tag from the key hex, parse the key bytes, dispatch on
the tag, hash `algo_name ++ 0x00 ++ key_bytes` and print
`account-hash-` followed by the digest in lowercase hex; every failure
is `sys.exit(1)`. -/
def accountHashScript (H : List Nat → List Nat) (hex_key : List Char) :
    Except Nat (List Char) :=
  let tag := hex_key.take 2
  let key_bytes_hex := hex_key.drop 2
  match fromhex key_bytes_hex with
  | none => Except.error 1
  | some key_bytes =>
    match algoOf tag key_bytes.length with
    | none => Except.error 1
    | some algo_name =>
      Except.ok ("account-hash-".toList ++
        toHexStr (H (utf8enc algo_name ++ 0 :: key_bytes)))

/-- `allHex key` : every character of `key` is a hex digit. -/
def allHex (s : List Char) : Bool := s.all fun c => (hexVal c).isSome

theorem hexVal_not_ws (c : Char) (h : (hexVal c).isSome = true) :
    isASCIIws c = false := by
  cases hw : isASCIIws c with
  | false => rfl
  | true =>
    exfalso
    simp only [isASCIIws, Bool.or_eq_true, beq_iff_eq] at hw
    rcases hw with ((((rfl | rfl) | rfl) | rfl) | rfl) | rfl <;>
      exact absurd h (by decide)

theorem fromhex_allHex (n : Nat) :
    ∀ key : List Char, key.length = 2 * n → allHex key = true →
      ∃ kb, fromhex key = some kb ∧ kb.length = n := by
  induction n with
  | zero =>
    intro key hl _
    have : key = [] := List.length_eq_zero.1 (by omega)
    subst this
    exact ⟨[], rfl, rfl⟩
  | succ k ih =>
    intro key hl hall
    cases key with
    | nil => simp at hl
    | cons c cs =>
      cases cs with
      | nil =>
        simp at hl
        omega
      | cons d cs' =>
        simp only [allHex, List.all_cons, Bool.and_eq_true] at hall
        obtain ⟨hc, hd, hrest⟩ := hall
        obtain ⟨hi, hhi⟩ := Option.isSome_iff_exists.1 hc
        obtain ⟨lo, hlo⟩ := Option.isSome_iff_exists.1 hd
        obtain ⟨kb, hkb, hkbl⟩ := ih cs' (by simp at hl ⊢; omega)
          (by simpa [allHex] using hrest)
        refine ⟨(16 * hi + lo) :: kb, ?_, by simp [hkbl]⟩
        have hnw : isASCIIws c = false := hexVal_not_ws c hc
        rw [fromhex.eq_def]
        simp only [hnw, Bool.false_eq_true, if_false, hhi, hlo, hkb]

/-- C10: on tag `01` with a 64-hex-character key the script prints
`account-hash-` followed by the lowercase hex digest of
`'ed25519' ++ 0x00 ++ key bytes`; on tag `02` it requires a 33-byte
key and hashes with the name `secp256k1`; a non-hex key, an unknown
tag, or a wrong key length all exit with status 1 and print no
account hash. -/
theorem account_hash_spec (H : List Nat → List Nat) :
    (∀ key kb, key.length = 64 → allHex key = true →
      fromhex key = some kb →
      accountHashScript H ("01".toList ++ key) =
        Except.ok ("account-hash-".toList ++
          toHexStr (H (utf8enc "ed25519".toList ++ 0 :: kb)))) ∧
    (∀ key kb, key.length = 66 → allHex key = true →
      fromhex key = some kb →
      accountHashScript H ("02".toList ++ key) =
        Except.ok ("account-hash-".toList ++
          toHexStr (H (utf8enc "secp256k1".toList ++ 0 :: kb)))) ∧
    (∀ hex_key, fromhex (hex_key.drop 2) = none →
      accountHashScript H hex_key = Except.error 1) ∧
    (∀ hex_key kb, fromhex (hex_key.drop 2) = some kb →
      hex_key.take 2 ≠ "01".toList → hex_key.take 2 ≠ "02".toList →
      accountHashScript H hex_key = Except.error 1) ∧
    (∀ hex_key kb, fromhex (hex_key.drop 2) = some kb →
      hex_key.take 2 = "01".toList → kb.length ≠ 32 →
      accountHashScript H hex_key = Except.error 1) ∧
    (∀ hex_key kb, fromhex (hex_key.drop 2) = some kb →
      hex_key.take 2 = "02".toList → kb.length ≠ 33 →
      accountHashScript H hex_key = Except.error 1) := by
  refine ⟨?_, ?_, ?_, ?_, ?_, ?_⟩
  · intro key kb hl hall hfh
    have hdrop : ("01".toList ++ key).drop 2 = key := List.drop_left' (by decide)
    have htake : ("01".toList ++ key).take 2 = "01".toList :=
      List.take_left' (by decide)
    obtain ⟨kb', hkb', hkbl'⟩ := fromhex_allHex 32 key (by omega) hall
    rw [hfh] at hkb'
    simp only [Option.some.injEq] at hkb'
    subst hkb'
    simp [accountHashScript, hdrop, htake, hfh, algoOf, hkbl']
  · intro key kb hl hall hfh
    have hdrop : ("02".toList ++ key).drop 2 = key := List.drop_left' (by decide)
    have htake : ("02".toList ++ key).take 2 = "02".toList :=
      List.take_left' (by decide)
    obtain ⟨kb', hkb', hkbl'⟩ := fromhex_allHex 33 key (by omega) hall
    rw [hfh] at hkb'
    simp only [Option.some.injEq] at hkb'
    subst hkb'
    have hne : ("02".toList : List Char) ≠ "01".toList := by decide
    simp [accountHashScript, hdrop, htake, hfh, algoOf, hne, hkbl']
  · intro hex_key hfh
    simp [accountHashScript, hfh]
  · intro hex_key kb hfh h1 h2
    simp only [accountHashScript, hfh, algoOf, if_neg h1, if_neg h2]
  · intro hex_key kb hfh h1 hn
    simp [accountHashScript, hfh, algoOf, h1, hn]
  · intro hex_key kb hfh h1 hn
    have hne : ("02".toList : List Char) ≠ "01".toList := by decide
    simp [accountHashScript, hfh, algoOf, h1, hne, hn]

theorem account_hash_spec_witness :
    accountHashScript (fun _ => []) ("01".toList ++ List.replicate 64 'a') =
      Except.ok ("account-hash-".toList ++
        toHexStr ((fun _ => ([] : List Nat))
          (utf8enc "ed25519".toList ++ 0 :: List.replicate 32 170))) :=
  (account_hash_spec (fun _ => [])).1 (List.replicate 64 'a')
    (List.replicate 32 170) (by decide) (by decide) (by decide)

end Polyfill
